import Mathlib

/-!
Shallow embedding of the sweep-driver and parallel contraction engine of
block2 (`src/block2/sweep_algorithm.hpp` and
`src/block2/parallel_tensor_functions.hpp`), together with proofs of the
specified properties.

Numeric scalars (C++ `double` / `long double`) are modelled by `ℚ`; no
claim checked here depends on floating-point rounding. External numeric
kernels (eigensolver, exponential propagator, dense block contraction,
`expl`) are black boxes per the spec's scope: their results enter the
model as parameters.
-/

namespace Block2

/-! ## Canonical-form tags (`MPS::canonical_form`, a `string` in the source) -/

/-- Canonical-form tag of one site: `'L'`, `'C'`, `'R'`, or `'M'`
(multi-target center). -/
inductive Tag where
  | L | C | R | M
deriving DecidableEq, Repr

/-- Tag update performed by `DMRG<S>::update_two_dot` (sweep_algorithm.hpp
lines 158-170): forward sets `canonical_form[i]='L'`,
`canonical_form[i+1]='C'`; backward sets `canonical_form[i]='C'`,
`canonical_form[i+1]='R'`. No other position is written. -/
def updateTwoDotTags (tags : List Tag) (i : Nat) (forward : Bool) : List Tag :=
  if forward then (tags.set i .L).set (i + 1) .C
  else (tags.set i .C).set (i + 1) .R

/-- Tag update performed by `DMRG<S>::update_multi_two_dot`
(sweep_algorithm.hpp lines 224-236): forward sets `'L'`/`'M'`, backward
sets `'M'`/`'R'`. -/
def updateMultiTwoDotTags (tags : List Tag) (i : Nat) (forward : Bool) : List Tag :=
  if forward then (tags.set i .L).set (i + 1) .M
  else (tags.set i .M).set (i + 1) .R

/-- The single-center canonical-form pattern `L^c ++ [t] ++ R^k`:
`c` left-normalized sites, one center tagged `t`, then right-normalized
sites. With `t = Tag.C` this is the pattern `L*CR*`, with `t = Tag.M`
the pattern `L*MR*`, with the center at position `c`. -/
def centerPattern (c : Nat) (t : Tag) (k : Nat) : List Tag :=
  List.replicate c Tag.L ++ [t] ++ List.replicate k Tag.R

/-- The two-site working pattern `L^i ++ [x, y] ++ R^k` that holds on
entry to a two-dot blocking step at sites `i`, `i+1` (`x`, `y` are the
two center tags). -/
def twoDotPattern (i : Nat) (x y : Tag) (k : Nat) : List Tag :=
  List.replicate i Tag.L ++ [x, y] ++ List.replicate k Tag.R

/-! ## Loop skeleton shared by the multi-sweep drivers

The `for` loops of `DMRG<S>::solve` / `Compress<S>::solve` run the body
at index `iw`, then test a stop condition and `break`.  `loopCount stop
fuel i` is the total number of body executions when indices `i, i+1, …`
remain with `fuel` iterations left. -/

def loopCount (stop : Nat → Bool) : Nat → Nat → Nat
  | 0, i => i
  | fuel + 1, i => if stop i then i + 1 else loopCount stop fuel (i + 1)

/-- The guarded `vector::resize(n_sweeps, v.back())` as used at the top of the
`solve` drivers: guarded by `size() < n_sweeps`, so it only ever extends
the schedule, padding with the last scheduled value. -/
def extendSchedule {α : Type} [Inhabited α] (l : List α) (n : Nat) : List α :=
  if l.length < n then l ++ List.replicate (n - l.length) (l.getLastD default) else l

/-- The `min_element` call with comparator `x[0] < y[0]` followed by dereference,
as used at the end of `DMRG<S>::sweep` (lines 313-319): the first
per-position energy vector whose leading entry is minimal.  The result
is the best (lowest leading) energy vector of the sweep. -/
def sweepBest (l : List (List ℚ)) : List ℚ :=
  match l with
  | [] => []
  | x :: xs => xs.foldl (fun best y => if y.getD 0 0 < best.getD 0 0 then y else best) x

/-- The convergence test of `DMRG<S>::solve` (sweep_algorithm.hpp lines
349-353), evaluated after sweep `iw` has pushed its best-energy vector:
`energies.size() >= 2 && tol > 0 && |energies[last].back() -
energies[last-1].back()| < tol && noises[iw] == noises.back() &&
bond_dims[iw] == bond_dims.back()`.  `E iw` is the best-energy vector
recorded by sweep `iw`. -/
def dmrgConvergedAt (tol : ℚ) (bondDims : List ℕ) (noises : List ℚ)
    (E : Nat → List ℚ) (iw : Nat) : Bool :=
  decide (1 ≤ iw) && decide (0 < tol) &&
    decide (|(E iw).getLastD 0 - (E (iw - 1)).getLastD 0| < tol) &&
    decide (noises.getD iw 0 = noises.getLastD 0) &&
    decide (bondDims.getD iw 0 = bondDims.getLastD 0)

/-- Number of sweeps executed by the `for` loop of `DMRG<S>::solve`
(lines 335-374): the schedules are first extended to `n_sweeps`, then
the loop runs sweep `iw`, records its result, and breaks when the
convergence test holds. -/
def dmrgSweepsRun (tol : ℚ) (bondDims : List ℕ) (noises : List ℚ)
    (E : Nat → List ℚ) (nSweeps : Nat) : Nat :=
  loopCount
    (dmrgConvergedAt tol (extendSchedule bondDims nSweeps)
      (extendSchedule noises nSweeps) E) nSweeps 0

/-- The convergence test of `Compress<S>::solve` (sweep_algorithm.hpp
lines 816-820): same shape as the DMRG one, on the per-sweep norm `N`
and the bra bond-dimension schedule. -/
def compressConvergedAt (tol : ℚ) (braBondDims : List ℕ) (noises : List ℚ)
    (N : Nat → ℚ) (iw : Nat) : Bool :=
  decide (1 ≤ iw) && decide (0 < tol) &&
    decide (|N iw - N (iw - 1)| < tol) &&
    decide (noises.getD iw 0 = noises.getLastD 0) &&
    decide (braBondDims.getD iw 0 = braBondDims.getLastD 0)

/-- Number of sweeps executed by the `for` loop of `Compress<S>::solve`
(lines 805-832). -/
def compressSweepsRun (tol : ℚ) (braBondDims : List ℕ) (noises : List ℚ)
    (N : Nat → ℚ) (nSweeps : Nat) : Nat :=
  loopCount
    (compressConvergedAt tol (extendSchedule braBondDims nSweeps)
      (extendSchedule noises nSweeps) N) nSweeps 0

/-! ## The operator expression tree

`expr.hpp` is outside the covered sources; the node shapes follow the
spec's Operator Expression Tree (Zero; single operator; Product with two
operator keys, a conjugation flag word and a scalar factor; Sum of a
list; ExprRef of an inner expression with a locality flag) and match
every use in `parallel_tensor_functions.hpp`.  Elementary operators are
identified by a stable key (`Nat`). -/

inductive OpExpr where
  | zero
  | elem (op : Nat)
  | prod (a b : Nat) (conj : Nat) (factor : ℚ)
  | sum (strings : List OpExpr)
  | exprRef (op : OpExpr) (isLocal : Bool)

/-- A communication primitive issued by the parallel rule's communicator:
`allreduce_sum` (result identical on every worker) or
`reduce_sum(..., rule->comm->root)` (combined only at the root). -/
inductive CommEvent where
  | allReduce
  | reduceSumRoot
deriving DecidableEq, Repr

/-- One invocation of the external dense kernel
`opf->tensor_product_multiply(conj, lmat, rmat, cmat, vmat, opdq,
factor)` at a `Prod` leaf, recorded by the operator keys it looked up
and the conjugation/factor it passed. -/
structure ProdApp where
  conj : Nat
  a : Nat
  b : Nat
  factor : ℚ
deriving DecidableEq, Repr

/-- Output state threaded through
`ParallelTensorFunctions<S>::tensor_product_multiply`: the output tensor
`vmat` is modelled by the list of kernel contributions accumulated into
it in place, plus the trace of communication calls issued. -/
structure TPState where
  vmat : List ProdApp
  events : List CommEvent
deriving DecidableEq, Repr

mutual

/-- Embeds `ParallelTensorFunctions<S>::tensor_product_multiply`
(parallel_tensor_functions.hpp lines 210-248).  `Prod` asserts that both
operator keys are present in the dictionaries (`lop`, `rop`, modelled by
their key sets) and applies the dense kernel; `Sum` recurses over each
summand with `all_reduce` cleared; `ExprRef` recurses with `all_reduce`
cleared and then, only if `all_reduce` was requested here, issues
`allreduce_sum(vmat)`; `Zero` does nothing; any other node kind is
`assert(false)`.  Assertion failures are `.error ()`. -/
def tensor_product_multiply (lop rop : List Nat) :
    OpExpr → Bool → TPState → Except Unit TPState
  | .prod a b conj factor, _, st =>
    if a ∈ lop ∧ b ∈ rop then
      .ok { st with vmat := st.vmat ++ [⟨conj, a, b, factor⟩] }
    else .error ()
  | .sum xs, _, st => tensor_product_multiply_sum lop rop xs st
  | .exprRef op _, ar, st => do
      let st' ← tensor_product_multiply lop rop op false st
      pure (if ar then { st' with events := st'.events ++ [.allReduce] } else st')
  | .zero, _, st => .ok st
  | .elem _, _, _ => .error ()

/-- The `Sum` case of `tensor_product_multiply`: recurse over
`op->strings` in order, accumulating into the same output. -/
def tensor_product_multiply_sum (lop rop : List Nat) :
    List OpExpr → TPState → Except Unit TPState
  | [], st => .ok st
  | x :: xs, st => do
    let st' ← tensor_product_multiply lop rop x false st
    tensor_product_multiply_sum lop rop xs st'

end

/-- The `SeqTypes` of the batching engine (`enum struct SeqTypes { None,
Simple, Auto }` in the sources outside scope; the three values are the
ones consulted by `parallel_tensor_functions.hpp`). -/
inductive SeqTypes where
  | none | simple | auto
deriving DecidableEq, Repr

/-- One application of the external dense kernel inside the `Prod` case
of `tensor_product_partial_multiply`: the looked-up operator key
(`op->a` when tracing right, `op->b` otherwise) and the masked
conjugation flag and factor passed down.  The per-label slot loop
(`pks`, `cinfos`, `vdqs`) is quantum-label plumbing of the external
kernel and is abstracted into this single record. -/
structure PartialApp where
  traceRight : Bool
  op : Nat
  conj : Nat
  factor : ℚ
deriving DecidableEq, Repr

/-- Output state of `tensor_product_partial_multiply`: the output group
`vmats` as its accumulated kernel contributions, plus the communication
trace. -/
structure TPPState where
  vmats : List PartialApp
  events : List CommEvent
deriving DecidableEq, Repr

mutual

/-- Embeds `ParallelTensorFunctions<S>::tensor_product_partial_multiply`
(parallel_tensor_functions.hpp lines 98-180).  `Prod` asserts the traced
dictionary holds the identity key `iOp` and the other dictionary the
operator key, then applies the dense kernel over the candidate label
slots; `Sum` recurses over each summand; `ExprRef` recurses and then,
only when the batching mode is not `SeqTypes::Auto`, issues
`reduce_sum(vmats, rule->comm->root)`; `Zero` does nothing; any other
node kind is `assert(false)`. -/
def tensor_product_partial_multiply (iOp : Nat) (lop rop : List Nat)
    (traceRight : Bool) (seqMode : SeqTypes) :
    OpExpr → TPPState → Except Unit TPPState
  | .prod a b conj factor, st =>
    if traceRight then
      if a ∈ lop ∧ iOp ∈ rop then
        .ok { st with vmats := st.vmats ++ [⟨true, a, conj.land 1, factor⟩] }
      else .error ()
    else
      if iOp ∈ lop ∧ b ∈ rop then
        .ok { st with vmats := st.vmats ++ [⟨false, b, conj.land 2, factor⟩] }
      else .error ()
  | .sum xs, st => tensor_product_partial_multiply_sum iOp lop rop traceRight seqMode xs st
  | .exprRef op _, st => do
      let st' ← tensor_product_partial_multiply iOp lop rop traceRight seqMode op st
      pure (if seqMode ≠ SeqTypes.auto
        then { st' with events := st'.events ++ [.reduceSumRoot] } else st')
  | .zero, st => .ok st
  | .elem _, _ => .error ()

/-- The `Sum` case of `tensor_product_partial_multiply`: recurse over
`op->strings` in order with unchanged arguments. -/
def tensor_product_partial_multiply_sum (iOp : Nat) (lop rop : List Nat)
    (traceRight : Bool) (seqMode : SeqTypes) :
    List OpExpr → TPPState → Except Unit TPPState
  | [], st => .ok st
  | x :: xs, st => do
    let st' ← tensor_product_partial_multiply iOp lop rop traceRight seqMode x st
    tensor_product_partial_multiply_sum iOp lop rop traceRight seqMode xs st'

end

/-! ## `numerical_transform` (parallel_tensor_functions.hpp lines 339-408) -/

/-- One local summand `op->strings[i]` of a localized defining sum: the
source operator key looked up in `a->ops`, the scalar factor and the
conjugation flag passed to `opf->iadd`. -/
structure NTSummand where
  op : Nat
  factor : ℚ
  conj : Bool
deriving DecidableEq, Repr, Inhabited

/-- One `(names->data[k], exprs->data[k])` entry of
`numerical_transform`, after the defining expression has been scaled by
`1/factor` and localized to the owner of the target operator:
`topZero` — the raw expression had type `Zero` (the entry is skipped in
both phases); `isLocal` — the localized expression is fully local to the
owner; `owner` — `rule->owner(nop)`; `summands` — the strings of the
localized sum (a localized `Zero` has none). -/
structure NTEntry where
  topZero : Bool
  isLocal : Bool
  owner : Nat
  summands : List NTSummand
deriving DecidableEq, Repr

/-- The `found` flag computed during pass `i` of the accumulation loop:
some non-`Zero` defining expression still has an `i`-th local summand
(`found |= i < op->strings.size()`). -/
def ntFound (entries : List NTEntry) (i : Nat) : Bool :=
  entries.any fun e => !e.topZero && decide (i < e.summands.length)

/-- One pass (fixed `i`) of the accumulation loop: for every non-`Zero`
entry whose localized sum still has an `i`-th summand, accumulate that
summand into the target operator in place (`opf->iadd`).  The target's
accumulated contribution list is threaded positionally alongside the
entries. -/
def ntPassStep (entries : List NTEntry) (i : Nat)
    (acc : List (List NTSummand)) : List (List NTSummand) :=
  (entries.zip acc).map fun p =>
    if !p.1.topZero && decide (i < p.1.summands.length)
    then p.2 ++ [p.1.summands.getD i default] else p.2

/-- The accumulation loop of `numerical_transform` (lines 352-391):
`for (size_t i = 0; i < a->ops.size(); i++)` runs pass `i`, then breaks
if the pass contributed nothing (`if (!found) break`).  Returns the
accumulated contributions and the number of passes executed. -/
def ntLoop (entries : List NTEntry) :
    Nat → Nat → List (List NTSummand) → List (List NTSummand) × Nat
  | 0, i, acc => (acc, i)
  | fuel + 1, i, acc =>
    let acc' := ntPassStep entries i acc
    if ntFound entries i then ntLoop entries fuel (i + 1) acc'
    else (acc', i + 1)

/-- The full accumulation phase of `numerical_transform`: the loop bound
is `a->ops.size()` and every target starts from its freshly allocated
(zero) operator block. -/
def numerical_transform_accumulate (opsSize : Nat) (entries : List NTEntry) :
    List (List NTSummand) × Nat :=
  ntLoop entries opsSize 0 (entries.map fun _ => [])

/-- The communication phase of `numerical_transform` (lines 394-407):
for every entry whose raw expression is not `Zero` and whose localized
expression is not local, `reduce_sum(a->ops.at(nop), rule->owner(nop))`
— recorded as the owner rank receiving the reduction. -/
def numerical_transform_reduce_targets (entries : List NTEntry) : List Nat :=
  entries.filterMap fun e =>
    if !e.topZero && !e.isLocal then some e.owner else none

/-! ## Blocking dispatch of the four sweep drivers -/

/-- Failure modes of a blocking step: a thrown `std::runtime_error`
(catchable by the caller) versus a failed `assert` (fatal abort). -/
inductive SweepErr where
  | runtimeErr (msg : String)
  | assertFail
deriving DecidableEq, Repr

/-- Which two-dot update a dispatching driver selects. -/
inductive TwoDotBranch where
  | twoDot | multiTwoDot
deriving DecidableEq, Repr

/-- Embeds `DMRG<S>::blocking` (sweep_algorithm.hpp lines 263-276): with
`dot == 2`, dispatch on whether either center tag is `'M'`; otherwise
`throw runtime_error("1 site not yet implemented")`. -/
def dmrgBlocking (dot : Nat) (cfI cfI1 : Tag) : Except SweepErr TwoDotBranch :=
  if dot = 2 then
    if cfI = Tag.M ∨ cfI1 = Tag.M then .ok .multiTwoDot else .ok .twoDot
  else .error (.runtimeErr "1 site not yet implemented")

/-- Embeds `ImaginaryTE<S>::blocking` (lines 553-560). -/
def teBlocking (dot : Nat) : Except SweepErr Unit :=
  if dot = 2 then .ok () else .error (.runtimeErr "1 site not yet implemented")

/-- Embeds `Compress<S>::blocking` (lines 751-759). -/
def compressBlocking (dot : Nat) : Except SweepErr Unit :=
  if dot = 2 then .ok () else .error (.runtimeErr "1 site not yet implemented")

/-- Embeds `Expect<S>::blocking` (lines 1075-1088). -/
def expectBlocking (dot : Nat) (cfI cfI1 : Tag) : Except SweepErr TwoDotBranch :=
  if dot = 2 then
    if cfI = Tag.M ∨ cfI1 = Tag.M then .ok .multiTwoDot else .ok .twoDot
  else .error (.runtimeErr "1 site not yet implemented")

/-! ## `ImaginaryTE<S>::update_two_dot` mode and truncation control -/

/-- The `enum struct TETypes { TangentSpace, RK4 }` (sweep_algorithm.hpp
line 380). -/
inductive TETypes where
  | tangentSpace | rk4
deriving DecidableEq, Repr

/-- The `enum struct TruncPatternTypes { None, TruncAfterOdd, TruncAfterEven }`
(line 382). -/
inductive TruncPatternTypes where
  | none | truncAfterOdd | truncAfterEven
deriving DecidableEq, Repr

/-- The RK4 combination weights, member initializer `weights = {1.0/3.0,
1.0/6.0, 1.0/6.0, 1.0/3.0}` (line 398). -/
def teWeights : List ℚ := [1 / 3, 1 / 6, 1 / 6, 1 / 3]

/-- The chain-boundary test of `update_two_dot` (line 441):
`(forward && i + 1 == me->n_sites - 1) || (!forward && i == 0)`. -/
def teBoundary (forward : Bool) (i nSites : ℤ) : Bool :=
  (forward && decide (i + 1 = nSites - 1)) || (!forward && decide (i = 0))

/-- Lines 439-442: `effective_mode = mode`, downgraded to `TangentSpace`
when `mode == RK4` at a chain boundary. -/
def teEffectiveMode (mode : TETypes) (forward : Bool) (i nSites : ℤ) : TETypes :=
  if mode = TETypes.rk4 && teBoundary forward i nSites then TETypes.tangentSpace
  else mode

/-- Which numeric branch of `update_two_dot` (lines 444-483) runs and
how the density matrix is formed. -/
inductive TEBranch where
  /-- Boundary, non-advancing sub-sweep: `expo_apply` for the energy on
  a copy, then `rk4_apply`, density matrix with the RK4 weights. -/
  | expoThenRk4 (weights : List ℚ)
  /-- Tangent-space single exponential: `expo_apply`, plain density
  matrix. -/
  | expoApply
  /-- RK4: `rk4_apply`, density matrix combining the four intermediate
  evaluations with the given weights
  (`density_matrix_with_weights(..., pdp.first, weights, ...)`). -/
  | rk4Weighted (weights : List ℚ)
deriving DecidableEq, Repr

/-- The branch structure of `update_two_dot` (lines 444-483): the first
branch (`!advance` at a boundary) asserts `effective_mode ==
TangentSpace` and `mode == RK4`; otherwise dispatch on
`effective_mode`. -/
def teUpdateBranch (mode : TETypes) (forward advance : Bool)
    (i nSites : ℤ) (weights : List ℚ) : Except SweepErr TEBranch :=
  let em := teEffectiveMode mode forward i nSites
  if !advance && teBoundary forward i nSites then
    if em = TETypes.tangentSpace && mode = TETypes.rk4 then .ok (.expoThenRk4 weights)
    else .error .assertFail
  else if em = TETypes.tangentSpace then .ok .expoApply
  else .ok (.rk4Weighted weights)

/-- Lines 484-489: the bond dimension handed to `split_density_matrix`
is forced to `-1` when the truncation pattern excludes this position
(`TruncAfterOdd` at even `i`, `TruncAfterEven` at odd `i`), else the
requested budget. -/
def teSplitBondDim (truncPattern : TruncPatternTypes) (i : ℤ) (bondDim : ℤ) : ℤ :=
  if (truncPattern = TruncPatternTypes.truncAfterOdd && decide (i % 2 = 0)) ||
      (truncPattern = TruncPatternTypes.truncAfterEven && decide (i % 2 = 1))
  then -1 else bondDim

/-- Modelled from the spec: the kept-dimension bound that
`MovingEnvironment<S>::split_density_matrix` (moving_environment.hpp, not
among the covered sources) applies — a negative requested bond dimension
means no truncation (unbounded kept dimension), a non-negative one
bounds the kept dimension. -/
def splitKeptBound (bdim : ℤ) : Option ℕ :=
  if bdim < 0 then none else some bdim.toNat

/-! ## Partition weights and thermally-averaged expectations -/

/-- The unnormalized Boltzmann terms of `get_partition_weights`
(sweep_algorithm.hpp lines 841-846):
`multiplicities[i] * expl(-beta * (energies[i] - energies[0]))`.
`expFn` is the external `expl` kernel. -/
def partition_terms (expFn : ℚ → ℚ) (beta : ℚ)
    (energies : List ℚ) (multiplicities : List ℤ) : List ℚ :=
  (List.range energies.length).map fun i =>
    (multiplicities.getD i 0 : ℚ) *
      expFn (-beta * (energies.getD i 0 - energies.getD 0 0))

/-- Embeds `get_partition_weights` (lines 838-852): each term divided by the
accumulated sum of all terms. -/
def get_partition_weights (expFn : ℚ → ℚ) (beta : ℚ)
    (energies : List ℚ) (multiplicities : List ℤ) : List ℚ :=
  let pw := partition_terms expFn beta energies multiplicities
  let psum := pw.sum
  pw.map fun w => w / psum

/-- The per-operator combination loop of
`Expect<S>::update_multi_two_dot` (lines 1066-1071):
`for l < partition_weights.size(): x += partition_weights[l] *
pdi[k].second[l]`. -/
def multi_expect_value (partitionWeights : List ℚ) (vals : List ℚ) : ℚ :=
  (List.range partitionWeights.length).foldl
    (fun x l => x + partitionWeights.getD l 0 * vals.getD l 0) 0

/-- Lines 1064-1071: each reported expectation pairs the operator with
the partition-weighted combination of its per-target values. -/
def update_multi_expectations (partitionWeights : List ℚ)
    (pdi : List (Nat × List ℚ)) : List (Nat × ℚ) :=
  pdi.map fun kv => (kv.1, multi_expect_value partitionWeights kv.2)

/-! ## Bra/ket aliasing (C10) -/

/-- Embeds the precondition check of `Compress<S>::update_two_dot`:
`assert(me->bra != me->ket)` (sweep_algorithm.hpp line 691).  MPS
objects are compared by address, modelled as a `Nat` identity. -/
def compress_update_two_dot_check (bra ket : Nat) : Except SweepErr Unit :=
  if bra ≠ ket then .ok () else .error .assertFail

/-- The list of MPS objects `Expect<S>::update_two_dot` updates
(lines 909-911): just the shared object when `me->bra == me->ket`,
otherwise bra then ket. -/
def expect_update_mpss (bra ket : Nat) : List Nat :=
  if bra = ket then [bra] else [bra, ket]

/-! # Theorems -/

/-! ## Canonical-form bookkeeping (C1) -/

theorem twoDotPattern_set_left (i : Nat) (x y a : Tag) (k : Nat) :
    (twoDotPattern i x y k).set i a = twoDotPattern i a y k := by
  induction i with
  | zero => simp [twoDotPattern]
  | succ n ih =>
    simp only [twoDotPattern, List.replicate_succ, List.cons_append,
      List.set_cons_succ] at *
    rw [ih]

theorem twoDotPattern_set_right (i : Nat) (x y b : Tag) (k : Nat) :
    (twoDotPattern i x y k).set (i + 1) b = twoDotPattern i x b k := by
  induction i with
  | zero => simp [twoDotPattern]
  | succ n ih =>
    simp only [twoDotPattern, List.replicate_succ, List.cons_append,
      List.set_cons_succ] at *
    rw [ih]

theorem twoDotPattern_left_L (i : Nat) (t : Tag) (k : Nat) :
    twoDotPattern i Tag.L t k = centerPattern (i + 1) t k := by
  induction i with
  | zero => simp [twoDotPattern, centerPattern]
  | succ n ih =>
    simp only [twoDotPattern, centerPattern, List.replicate_succ,
      List.cons_append] at *
    rw [ih]

theorem twoDotPattern_right_R (i : Nat) (t : Tag) (k : Nat) :
    twoDotPattern i t Tag.R k = centerPattern i t (k + 1) := by
  induction i with
  | zero => simp [twoDotPattern, centerPattern, List.replicate_succ]
  | succ n ih =>
    simp only [twoDotPattern, centerPattern, List.replicate_succ,
      List.cons_append] at *
    rw [ih]

/-- C1: starting from the two-site working pattern `L^i x y R^k`, a
forward two-dot DMRG step rewrites sites `i`, `i+1` to `L`, `C` (`L`,
`M` for the multi-target variant), yielding the pattern `L*CR*`
(`L*MR*`) with center `i+1`; a backward step rewrites them to `C`, `R`
(`M`, `R`), yielding the pattern with center `i`; and no tag outside
positions `i`, `i+1` is changed. -/
theorem dmrg_two_dot_canonical_form (tags : List Tag) (i k : Nat) (x y : Tag)
    (h : tags = twoDotPattern i x y k) :
    updateTwoDotTags tags i true = centerPattern (i + 1) Tag.C k ∧
    updateTwoDotTags tags i false = centerPattern i Tag.C (k + 1) ∧
    updateMultiTwoDotTags tags i true = centerPattern (i + 1) Tag.M k ∧
    updateMultiTwoDotTags tags i false = centerPattern i Tag.M (k + 1) ∧
    ∀ (forward : Bool) (j : Nat), j ≠ i → j ≠ i + 1 →
      (updateTwoDotTags tags i forward)[j]? = tags[j]? ∧
      (updateMultiTwoDotTags tags i forward)[j]? = tags[j]? := by
  subst h
  refine ⟨?_, ?_, ?_, ?_, ?_⟩
  · rw [updateTwoDotTags, if_pos rfl, twoDotPattern_set_left,
      twoDotPattern_set_right, twoDotPattern_left_L]
  · rw [updateTwoDotTags, if_neg (by simp), twoDotPattern_set_left,
      twoDotPattern_set_right, twoDotPattern_right_R]
  · rw [updateMultiTwoDotTags, if_pos rfl, twoDotPattern_set_left,
      twoDotPattern_set_right, twoDotPattern_left_L]
  · rw [updateMultiTwoDotTags, if_neg (by simp), twoDotPattern_set_left,
      twoDotPattern_set_right, twoDotPattern_right_R]
  · intro forward j hji hji1
    cases forward <;>
      simp [updateTwoDotTags, updateMultiTwoDotTags,
        List.getElem?_set_ne (Ne.symm hji), List.getElem?_set_ne (Ne.symm hji1)]

/-- Witness for C1 on a concrete 4-site chain: the pre-step tags
`[L, C, C, R]` with the two-dot center at sites `1`, `2`. -/
theorem dmrg_two_dot_canonical_form_witness :
    updateTwoDotTags [Tag.L, Tag.C, Tag.C, Tag.R] 1 true =
      [Tag.L, Tag.L, Tag.C, Tag.R] :=
  (dmrg_two_dot_canonical_form [Tag.L, Tag.C, Tag.C, Tag.R] 1 1 Tag.C Tag.C
    (by decide)).1

/-! ## Behaviour of the shared loop skeleton -/

theorem loopCount_le (stop : Nat → Bool) (fuel i : Nat) :
    loopCount stop fuel i ≤ i + fuel := by
  induction fuel generalizing i with
  | zero => simp [loopCount]
  | succ n ih =>
    rw [loopCount]
    split
    · omega
    · have := ih (i + 1)
      omega

theorem loopCount_first_stop (stop : Nat → Bool) (fuel i k : Nat)
    (hik : i ≤ k) (hk : k < i + fuel) (hstop : stop k = true)
    (hmin : ∀ j, i ≤ j → j < k → stop j = false) :
    loopCount stop fuel i = k + 1 := by
  induction fuel generalizing i with
  | zero => omega
  | succ n ih =>
    rw [loopCount]
    by_cases h : stop i = true
    · rw [if_pos h]
      have : i = k := by
        by_contra hne
        have hlt : i < k := lt_of_le_of_ne hik hne
        have := hmin i le_rfl hlt
        rw [this] at h
        exact Bool.false_ne_true h
      omega
    · rw [if_neg h]
      have hik' : i + 1 ≤ k := by
        rcases Nat.eq_or_lt_of_le hik with rfl | h2
        · rw [hstop] at h
          exact absurd rfl h
        · omega
      exact ih (i + 1) hik' (by omega) fun j hj1 hj2 => hmin j (by omega) hj2

theorem loopCount_no_stop (stop : Nat → Bool) (fuel i : Nat)
    (h : ∀ j, i ≤ j → j < i + fuel → stop j = false) :
    loopCount stop fuel i = i + fuel := by
  induction fuel generalizing i with
  | zero => simp [loopCount]
  | succ n ih =>
    rw [loopCount, if_neg]
    · have := ih (i + 1) fun j hj1 hj2 => h j (by omega) (by omega)
      omega
    · rw [h i le_rfl (by omega)]
      exact Bool.false_ne_true

theorem loopCount_not_stop_before (stop : Nat → Bool) (fuel i j : Nat)
    (hij : i ≤ j) (h : j + 1 < loopCount stop fuel i) : stop j = false := by
  induction fuel generalizing i with
  | zero => rw [loopCount] at h; omega
  | succ n ih =>
    rw [loopCount] at h
    by_cases hs : stop i = true
    · rw [if_pos hs] at h; omega
    · rw [if_neg hs] at h
      rcases Nat.eq_or_lt_of_le hij with rfl | h2
      · exact Bool.eq_false_iff.mpr hs
      · exact ih (i + 1) h2 h

theorem loopCount_stop_at_exit (stop : Nat → Bool) (fuel i : Nat)
    (h : loopCount stop fuel i < i + fuel) :
    stop (loopCount stop fuel i - 1) = true := by
  induction fuel generalizing i with
  | zero => rw [loopCount] at *; omega
  | succ n ih =>
    rw [loopCount] at *
    by_cases hs : stop i = true
    · rw [if_pos hs] at *
      simpa using hs
    · rw [if_neg hs] at *
      exact ih (i + 1) (by omega)

/-- The loop breaks after iteration `iw` (of an early index `iw`)
exactly when `iw` is the first index whose stop test holds. -/
theorem loopCount_early (stop : Nat → Bool) (n iw : Nat) (hiw : iw + 1 < n) :
    loopCount stop n 0 = iw + 1 ↔
      (stop iw = true ∧ ∀ j, j < iw → stop j = false) := by
  constructor
  · intro h
    by_cases hex : ∃ j, stop j = true
    · have hk := Nat.find_spec hex
      have hkm : ∀ j, j < Nat.find hex → stop j = false := fun j hj =>
        Bool.eq_false_iff.mpr (Nat.find_min hex hj)
      by_cases hkn : Nat.find hex < n
      · have := loopCount_first_stop stop n 0 (Nat.find hex) (Nat.zero_le _)
          (by omega) hk fun j _ hj => hkm j hj
        rw [this] at h
        have : Nat.find hex = iw := by omega
        subst this
        exact ⟨hk, hkm⟩
      · have := loopCount_no_stop stop n 0 fun j _ hj =>
          Bool.eq_false_iff.mpr (Nat.find_min' hex · |>.not_lt (by omega) |>.elim)
        omega
    · push_neg at hex
      have := loopCount_no_stop stop n 0 fun j _ _ =>
        Bool.eq_false_iff.mpr (hex j)
      omega
  · rintro ⟨h1, h2⟩
    exact loopCount_first_stop stop n 0 iw (Nat.zero_le _) (by omega) h1
      fun j _ hj => h2 j hj

/-! ## Convergence stop rule (C2) -/

theorem dmrgConvergedAt_iff (tol : ℚ) (htol : 0 < tol) (bondDims : List ℕ)
    (noises : List ℚ) (E : Nat → List ℚ) (iw : Nat) :
    dmrgConvergedAt tol bondDims noises E iw = true ↔
      (1 ≤ iw ∧ |(E iw).getLastD 0 - (E (iw - 1)).getLastD 0| < tol ∧
        noises.getD iw 0 = noises.getLastD 0 ∧
        bondDims.getD iw 0 = bondDims.getLastD 0) := by
  simp only [dmrgConvergedAt, Bool.and_eq_true, decide_eq_true_eq]
  constructor
  · rintro ⟨⟨⟨⟨h1, _⟩, h2⟩, h3⟩, h4⟩
    exact ⟨h1, h2, h3, h4⟩
  · rintro ⟨h1, h2, h3, h4⟩
    exact ⟨⟨⟨⟨h1, htol⟩, h2⟩, h3⟩, h4⟩

theorem compressConvergedAt_iff (tol : ℚ) (htol : 0 < tol)
    (braBondDims : List ℕ) (noises : List ℚ) (N : Nat → ℚ) (iw : Nat) :
    compressConvergedAt tol braBondDims noises N iw = true ↔
      (1 ≤ iw ∧ |N iw - N (iw - 1)| < tol ∧
        noises.getD iw 0 = noises.getLastD 0 ∧
        braBondDims.getD iw 0 = braBondDims.getLastD 0) := by
  simp only [compressConvergedAt, Bool.and_eq_true, decide_eq_true_eq]
  constructor
  · rintro ⟨⟨⟨⟨h1, _⟩, h2⟩, h3⟩, h4⟩
    exact ⟨h1, h2, h3, h4⟩
  · rintro ⟨h1, h2, h3, h4⟩
    exact ⟨⟨⟨⟨h1, htol⟩, h2⟩, h3⟩, h4⟩

theorem sweepBest_foldl_min (xs : List (List ℚ)) (b : List ℚ) :
    (xs.foldl (fun best y => if y.getD 0 0 < best.getD 0 0 then y else best)
        b).getD 0 0 ≤ b.getD 0 0 ∧
      ∀ x ∈ xs,
        (xs.foldl (fun best y => if y.getD 0 0 < best.getD 0 0 then y else best)
            b).getD 0 0 ≤ x.getD 0 0 := by
  induction xs generalizing b with
  | nil => exact ⟨le_refl _, by simp⟩
  | cons y ys ih =>
    simp only [List.foldl_cons, List.mem_cons]
    by_cases h : y.getD 0 0 < b.getD 0 0
    · rw [if_pos h]
      refine ⟨le_trans (ih y).1 (le_of_lt h), ?_⟩
      rintro x (rfl | hx)
      · exact (ih x).1
      · exact (ih y).2 x hx
    · rw [if_neg h]
      refine ⟨(ih b).1, ?_⟩
      rintro x (rfl | hx)
      · exact le_trans (ih b).1 (le_of_not_lt h)
      · exact (ih b).2 x hx

/-- The function `sweepBest` picks an energy vector whose leading energy is minimal
over the sweep: the per-sweep recorded vector is the best one. -/
theorem sweepBest_min (l : List (List ℚ)) (x : List ℚ) (hx : x ∈ l) :
    (sweepBest l).getD 0 0 ≤ x.getD 0 0 := by
  match l, hx with
  | y :: ys, hx =>
    rw [sweepBest]
    rcases List.mem_cons.mp hx with rfl | hx'
    · exact (sweepBest_foldl_min ys x).1
    · exact (sweepBest_foldl_min ys y).2 x hx'

/-- C2: with positive tolerance, the multi-sweep loops of `DMRG::solve`
and `Compress::solve` terminate early — after `iw + 1 < n_sweeps` sweeps
— exactly when `iw` is the first sweep at which the recorded best energy
(the norm, for compression) changed by less than `tol` since the
previous sweep while both the noise and the bond-dimension schedule sit
at their final scheduled values. -/
theorem solve_early_termination (tol : ℚ) (htol : 0 < tol)
    (bondDims braBondDims : List ℕ) (noises : List ℚ)
    (E : Nat → List ℚ) (N : Nat → ℚ) (nSweeps iw : Nat)
    (hiw : iw + 1 < nSweeps) :
    (dmrgSweepsRun tol bondDims noises E nSweeps = iw + 1 ↔
      ((1 ≤ iw ∧ |(E iw).getLastD 0 - (E (iw - 1)).getLastD 0| < tol ∧
          (extendSchedule noises nSweeps).getD iw 0 =
            (extendSchedule noises nSweeps).getLastD 0 ∧
          (extendSchedule bondDims nSweeps).getD iw 0 =
            (extendSchedule bondDims nSweeps).getLastD 0) ∧
        ∀ j, j < iw →
          ¬(1 ≤ j ∧ |(E j).getLastD 0 - (E (j - 1)).getLastD 0| < tol ∧
            (extendSchedule noises nSweeps).getD j 0 =
              (extendSchedule noises nSweeps).getLastD 0 ∧
            (extendSchedule bondDims nSweeps).getD j 0 =
              (extendSchedule bondDims nSweeps).getLastD 0))) ∧
    (compressSweepsRun tol braBondDims noises N nSweeps = iw + 1 ↔
      ((1 ≤ iw ∧ |N iw - N (iw - 1)| < tol ∧
          (extendSchedule noises nSweeps).getD iw 0 =
            (extendSchedule noises nSweeps).getLastD 0 ∧
          (extendSchedule braBondDims nSweeps).getD iw 0 =
            (extendSchedule braBondDims nSweeps).getLastD 0) ∧
        ∀ j, j < iw →
          ¬(1 ≤ j ∧ |N j - N (j - 1)| < tol ∧
            (extendSchedule noises nSweeps).getD j 0 =
              (extendSchedule noises nSweeps).getLastD 0 ∧
            (extendSchedule braBondDims nSweeps).getD j 0 =
              (extendSchedule braBondDims nSweeps).getLastD 0))) := by
  constructor
  · rw [dmrgSweepsRun, loopCount_early _ _ _ hiw]
    have bridge := fun j => dmrgConvergedAt_iff tol htol
      (extendSchedule bondDims nSweeps) (extendSchedule noises nSweeps) E j
    constructor
    · rintro ⟨h1, h2⟩
      refine ⟨(bridge iw).mp h1, fun j hj hs => ?_⟩
      have := h2 j hj
      rw [Bool.eq_false_iff] at this
      exact this ((bridge j).mpr hs)
    · rintro ⟨h1, h2⟩
      refine ⟨(bridge iw).mpr h1, fun j hj => ?_⟩
      rw [Bool.eq_false_iff]
      intro hs
      exact h2 j hj ((bridge j).mp hs)
  · rw [compressSweepsRun, loopCount_early _ _ _ hiw]
    have bridge := fun j => compressConvergedAt_iff tol htol
      (extendSchedule braBondDims nSweeps) (extendSchedule noises nSweeps) N j
    constructor
    · rintro ⟨h1, h2⟩
      refine ⟨(bridge iw).mp h1, fun j hj hs => ?_⟩
      have := h2 j hj
      rw [Bool.eq_false_iff] at this
      exact this ((bridge j).mpr hs)
    · rintro ⟨h1, h2⟩
      refine ⟨(bridge iw).mpr h1, fun j hj => ?_⟩
      rw [Bool.eq_false_iff]
      intro hs
      exact h2 j hj ((bridge j).mp hs)

/-- Witness for C2: constant sweep results under schedules `[2]` / `[0]`
extended to three sweeps stop the loop right after sweep `1`. -/
theorem solve_early_termination_witness :
    dmrgSweepsRun 1 [2] [0] (fun _ => [0]) 3 = 2 ∧
    compressSweepsRun 1 [2] [0] (fun _ => 0) 3 = 2 := by
  have h := solve_early_termination 1 (by norm_num) [2] [2] [0]
    (fun _ => [0]) (fun _ => 0) 3 1 (by norm_num)
  constructor
  · exact h.1.mpr ⟨⟨le_refl 1, by norm_num, by decide,
      by decide⟩, fun j hj hs => absurd hs.1 (by omega)⟩
  · exact h.2.mpr ⟨⟨le_refl 1, by norm_num, by decide,
      by decide⟩, fun j hj hs => absurd hs.1 (by omega)⟩

/-! ## Communication discipline of `tensor_product_multiply` (C3) -/

mutual

theorem tpm_false_no_comm (lop rop : List Nat) :
    ∀ (e : OpExpr) (st st' : TPState),
      tensor_product_multiply lop rop e false st = .ok st' →
        st'.events = st.events
  | .zero, st, st', h => by
    rw [tensor_product_multiply] at h
    cases h
    rfl
  | .elem _, st, st', h => by
    rw [tensor_product_multiply] at h
    cases h
  | .prod a b conj factor, st, st', h => by
    rw [tensor_product_multiply] at h
    split at h
    · cases h
      rfl
    · cases h
  | .sum xs, st, st', h => by
    rw [tensor_product_multiply] at h
    exact tpm_sum_no_comm lop rop xs st st' h
  | .exprRef op l, st, st', h => by
    rw [tensor_product_multiply] at h
    rcases h1 : tensor_product_multiply lop rop op false st with e1 | st1
    · rw [h1] at h
      replace h : (Except.error e1 : Except Unit TPState) = Except.ok st' := h
      cases h
    · rw [h1] at h
      replace h : Except.ok st1 = Except.ok st' := h
      cases h
      exact tpm_false_no_comm lop rop op st _ h1

theorem tpm_sum_no_comm (lop rop : List Nat) :
    ∀ (xs : List OpExpr) (st st' : TPState),
      tensor_product_multiply_sum lop rop xs st = .ok st' →
        st'.events = st.events
  | [], st, st', h => by
    rw [tensor_product_multiply_sum] at h
    cases h
    rfl
  | x :: xs, st, st', h => by
    rw [tensor_product_multiply_sum] at h
    rcases h1 : tensor_product_multiply lop rop x false st with e1 | st1
    · rw [h1] at h
      replace h : (Except.error e1 : Except Unit TPState) = Except.ok st' := h
      cases h
    · rw [h1] at h
      replace h : tensor_product_multiply_sum lop rop xs st1 = Except.ok st' := h
      rw [tpm_sum_no_comm lop rop xs st1 st' h,
        tpm_false_no_comm lop rop x st st1 h1]

end

theorem tpm_sum_eq_foldlM (lop rop : List Nat) (xs : List OpExpr) (st : TPState) :
    tensor_product_multiply_sum lop rop xs st =
      xs.foldlM (fun s x => tensor_product_multiply lop rop x false s) st := by
  induction xs generalizing st with
  | nil => rfl
  | cons x xs ih =>
    rw [tensor_product_multiply_sum, List.foldlM_cons]
    rcases h1 : tensor_product_multiply lop rop x false st with e1 | st1
    · rfl
    · exact ih st1

/-- C3: in the parallel `tensor_product_multiply`, a `Zero` node leaves
the output state unchanged; a `Sum` node folds over its summands in
order, accumulating in place and passing `all_reduce = false` to each;
an `ExprRef` node first recurses into its inner expression with
`all_reduce = false` and appends exactly one all-reduce afterwards iff
`all_reduce` was requested at this call; and no communication at all is
issued while `all_reduce = false`, so the all-reduce appended by a
requested `ExprRef` is the only one of the whole evaluation. -/
theorem tensor_product_multiply_comm_discipline (lop rop : List Nat) :
    (∀ (ar : Bool) (st : TPState),
      tensor_product_multiply lop rop .zero ar st = .ok st) ∧
    (∀ (xs : List OpExpr) (ar : Bool) (st : TPState),
      tensor_product_multiply lop rop (.sum xs) ar st =
        xs.foldlM (fun s x => tensor_product_multiply lop rop x false s) st) ∧
    (∀ (e : OpExpr) (l ar : Bool) (st : TPState),
      tensor_product_multiply lop rop (.exprRef e l) ar st =
        Except.map
          (fun s => if ar then { s with events := s.events ++ [CommEvent.allReduce] }
            else s)
          (tensor_product_multiply lop rop e false st)) ∧
    (∀ (e : OpExpr) (st st' : TPState),
      tensor_product_multiply lop rop e false st = .ok st' →
        st'.events = st.events) ∧
    (∀ (e : OpExpr) (l : Bool) (st st' : TPState),
      tensor_product_multiply lop rop (.exprRef e l) true st = .ok st' →
        st'.events = st.events ++ [CommEvent.allReduce]) := by
  have hmap : ∀ (e : OpExpr) (l ar : Bool) (st : TPState),
      tensor_product_multiply lop rop (.exprRef e l) ar st =
        Except.map
          (fun s => if ar then { s with events := s.events ++ [CommEvent.allReduce] }
            else s)
          (tensor_product_multiply lop rop e false st) := by
    intro e l ar st
    rw [tensor_product_multiply]
    rcases h1 : tensor_product_multiply lop rop e false st with e1 | st1 <;> rfl
  refine ⟨?_, ?_, hmap, tpm_false_no_comm lop rop, ?_⟩
  · intro ar st
    rw [tensor_product_multiply]
  · intro xs ar st
    rw [tensor_product_multiply]
    exact tpm_sum_eq_foldlM lop rop xs st
  · intro e l st st' h
    rw [hmap] at h
    rcases h1 : tensor_product_multiply lop rop e false st with e1 | st1 <;>
      rw [h1] at h
    · replace h : (Except.error e1 : Except Unit TPState) = Except.ok st' := h
      cases h
    · replace h :
          Except.ok { st1 with events := st1.events ++ [CommEvent.allReduce] } =
            Except.ok st' := h
      cases h
      rw [tpm_false_no_comm lop rop e st st1 h1]

/-- Witness for C3: a requested `ExprRef` around a concrete product
issues exactly the one all-reduce. -/
theorem tensor_product_multiply_comm_discipline_witness :
    (TPState.mk [⟨0, 0, 0, 1⟩] [CommEvent.allReduce]).events =
      (TPState.mk [] []).events ++ [CommEvent.allReduce] :=
  (tensor_product_multiply_comm_discipline [0] [0]).2.2.2.2
    (.prod 0 0 0 1) true ⟨[], []⟩ ⟨[⟨0, 0, 0, 1⟩], [CommEvent.allReduce]⟩ rfl

/-! ## Communication discipline of `tensor_product_partial_multiply` (C5) -/

mutual

theorem tppm_events_only_reduce (iOp : Nat) (lop rop : List Nat)
    (tr : Bool) (sm : SeqTypes) :
    ∀ (e : OpExpr) (st st' : TPPState),
      tensor_product_partial_multiply iOp lop rop tr sm e st = .ok st' →
        ∀ ev ∈ st'.events, ev ∈ st.events ∨ ev = CommEvent.reduceSumRoot
  | .zero, st, st', h => by
    rw [tensor_product_partial_multiply] at h
    cases h
    exact fun ev hev => Or.inl hev
  | .elem _, st, st', h => by
    rw [tensor_product_partial_multiply] at h
    cases h
  | .prod a b conj factor, st, st', h => by
    rw [tensor_product_partial_multiply] at h
    split at h <;> split at h <;> cases h <;>
      exact fun ev hev => Or.inl hev
  | .sum xs, st, st', h => by
    rw [tensor_product_partial_multiply] at h
    exact tppm_sum_events_only_reduce iOp lop rop tr sm xs st st' h
  | .exprRef op l, st, st', h => by
    rw [tensor_product_partial_multiply] at h
    rcases h1 : tensor_product_partial_multiply iOp lop rop tr sm op st
      with e1 | st1
    · rw [h1] at h
      replace h : (Except.error e1 : Except Unit TPPState) = Except.ok st' := h
      cases h
    · rw [h1] at h
      replace h :
          Except.ok (if sm ≠ SeqTypes.auto
            then { st1 with events := st1.events ++ [CommEvent.reduceSumRoot] }
            else st1) = Except.ok st' := h
      cases h
      by_cases hsm : sm = SeqTypes.auto
      · rw [if_neg (by simp [hsm])]
        exact tppm_events_only_reduce iOp lop rop tr sm op st st1 h1
      · rw [if_pos hsm]
        intro ev hev
        rcases List.mem_append.mp hev with hev1 | hev2
        · exact tppm_events_only_reduce iOp lop rop tr sm op st st1 h1 ev hev1
        · exact Or.inr (List.mem_singleton.mp hev2)

theorem tppm_sum_events_only_reduce (iOp : Nat) (lop rop : List Nat)
    (tr : Bool) (sm : SeqTypes) :
    ∀ (xs : List OpExpr) (st st' : TPPState),
      tensor_product_partial_multiply_sum iOp lop rop tr sm xs st = .ok st' →
        ∀ ev ∈ st'.events, ev ∈ st.events ∨ ev = CommEvent.reduceSumRoot
  | [], st, st', h => by
    rw [tensor_product_partial_multiply_sum] at h
    cases h
    exact fun ev hev => Or.inl hev
  | x :: xs, st, st', h => by
    rw [tensor_product_partial_multiply_sum] at h
    rcases h1 : tensor_product_partial_multiply iOp lop rop tr sm x st
      with e1 | st1
    · rw [h1] at h
      replace h : (Except.error e1 : Except Unit TPPState) = Except.ok st' := h
      cases h
    · rw [h1] at h
      replace h :
          tensor_product_partial_multiply_sum iOp lop rop tr sm xs st1 =
            Except.ok st' := h
      intro ev hev
      rcases tppm_sum_events_only_reduce iOp lop rop tr sm xs st1 st' h ev hev
        with hev1 | hev2
      · exact tppm_events_only_reduce iOp lop rop tr sm x st st1 h1 ev hev1
      · exact Or.inr hev2

end

/-- C5 counterexample: under the batched `SeqTypes::Auto` sequencing
mode, evaluating an `ExprRef` node issues no communication at all — the
output group is not combined by a reduce-sum at this point, contrary to
the claim as stated. -/
theorem tppm_exprRef_auto_counterexample :
    tensor_product_partial_multiply 0 [] [] true SeqTypes.auto
        (OpExpr.exprRef OpExpr.zero true) ⟨[], []⟩ = .ok ⟨[], []⟩ ∧
      CommEvent.reduceSumRoot ∉ (TPPState.mk [] []).events :=
  ⟨rfl, by simp⟩

/-- C5 (amended): for every `ExprRef` node evaluated by
`tensor_product_partial_multiply`, after recursing into the inner
expression the output group is combined by exactly one reduce-sum to the
designated root worker whenever the batching mode is not
`SeqTypes::Auto` (under `Auto` no communication is issued at this
point); and the evaluation never issues an all-reduce: every
communication event it ever adds is a reduce-sum to the root. -/
theorem tensor_product_partial_multiply_reduce_discipline (iOp : Nat)
    (lop rop : List Nat) (tr : Bool) :
    (∀ (sm : SeqTypes) (e : OpExpr) (l : Bool) (st : TPPState),
      tensor_product_partial_multiply iOp lop rop tr sm (.exprRef e l) st =
        Except.map
          (fun s => if sm ≠ SeqTypes.auto
            then { s with events := s.events ++ [CommEvent.reduceSumRoot] }
            else s)
          (tensor_product_partial_multiply iOp lop rop tr sm e st)) ∧
    (∀ (sm : SeqTypes) (e : OpExpr) (st st' : TPPState),
      tensor_product_partial_multiply iOp lop rop tr sm e st = .ok st' →
        ∀ ev ∈ st'.events, ev ∈ st.events ∨ ev = CommEvent.reduceSumRoot) := by
  refine ⟨?_, fun sm => tppm_events_only_reduce iOp lop rop tr sm⟩
  intro sm e l st
  rw [tensor_product_partial_multiply]
  rcases h1 : tensor_product_partial_multiply iOp lop rop tr sm e st
    with e1 | st1 <;> rfl

/-- Witness for C5 (amended): with the `Simple` batching mode, a
concrete `ExprRef` evaluation ends with exactly the one reduce-sum to
the root. -/
theorem tensor_product_partial_multiply_reduce_discipline_witness :
    CommEvent.reduceSumRoot ∈ (TPPState.mk [] []).events ∨
      CommEvent.reduceSumRoot = CommEvent.reduceSumRoot :=
  (tensor_product_partial_multiply_reduce_discipline 0 [] [] true).2
    SeqTypes.simple (.exprRef .zero true) ⟨[], []⟩
    ⟨[], [CommEvent.reduceSumRoot]⟩ rfl CommEvent.reduceSumRoot (by simp)

/-! ## Termination of the `numerical_transform` accumulation loop (C4) -/

theorem ntPassStep_take (entries : List NTEntry) (i : Nat) :
    ntPassStep entries i
        (entries.map fun e => if e.topZero then [] else e.summands.take i) =
      entries.map fun e => if e.topZero then [] else e.summands.take (i + 1) := by
  induction entries with
  | nil => rfl
  | cons e es ih =>
    simp only [List.map_cons, ntPassStep, List.zip_cons_cons] at *
    rw [ih]
    congr 1
    · by_cases hz : e.topZero = true
      · simp [hz]
      · by_cases hl : i < e.summands.length
        · rw [if_pos
              (show (!e.topZero && decide (i < e.summands.length)) = true by
                simp [hz, hl]),
            if_neg (by simp [hz]), if_neg (by simp [hz]), List.take_succ,
            List.getElem?_eq_getElem hl, List.getD_eq_getElem?_getD,
            List.getElem?_eq_getElem hl]
          rfl
        · have hle : e.summands.length ≤ i := le_of_not_lt hl
          rw [if_neg (show ¬(!e.topZero && decide (i < e.summands.length)) = true
              by simp [hl]),
            if_neg (by simp [hz]), if_neg (by simp [hz]),
            List.take_of_length_le hle,
            List.take_of_length_le (le_trans hle (Nat.le_succ i))]

theorem ntLoop_take (entries : List NTEntry) (fuel i : Nat) :
    ntLoop entries fuel i
        (entries.map fun e => if e.topZero then [] else e.summands.take i) =
      (entries.map fun e => if e.topZero then [] else
          e.summands.take (loopCount (fun j => !ntFound entries j) fuel i),
        loopCount (fun j => !ntFound entries j) fuel i) := by
  induction fuel generalizing i with
  | zero => rw [ntLoop, loopCount]
  | succ n ih =>
    rw [ntLoop, loopCount]
    by_cases h : ntFound entries i = true
    · simp only [ntPassStep_take, h, if_true, Bool.not_true,
        Bool.false_eq_true, if_false]
      exact ih (i + 1)
    · simp only [ntPassStep_take, h, if_false, Bool.not_eq_true] at *
      simp [h]

/-- C4: the accumulation loop of `numerical_transform` terminates after
at most one pass per entry of the operator map `a->ops`; the final state
of every target operator is the in-place sum of the first `passes` local
summands of its (non-`Zero`) defining expression; every pass before the
last still contributed some summand, and when the loop exits early the
last executed pass contributed nothing; afterwards exactly the targets
of non-`Zero`, non-local defining expressions are reduce-summed to their
owner. -/
theorem numerical_transform_loop_termination (opsSize : Nat)
    (entries : List NTEntry) :
    (numerical_transform_accumulate opsSize entries).2 ≤ opsSize ∧
    (numerical_transform_accumulate opsSize entries).1 =
      (entries.map fun e => if e.topZero then [] else
        e.summands.take (numerical_transform_accumulate opsSize entries).2) ∧
    (∀ i, i + 1 < (numerical_transform_accumulate opsSize entries).2 →
      ntFound entries i = true) ∧
    ((numerical_transform_accumulate opsSize entries).2 < opsSize →
      ntFound entries
        ((numerical_transform_accumulate opsSize entries).2 - 1) = false) ∧
    (∀ r : Nat, r ∈ numerical_transform_reduce_targets entries ↔
      ∃ e ∈ entries, e.topZero = false ∧ e.isLocal = false ∧ e.owner = r) := by
  have hinit : (entries.map fun _ => ([] : List NTSummand)) =
      entries.map fun e => if e.topZero then [] else e.summands.take 0 := by
    apply List.map_congr_left
    intro e _
    cases e.topZero <;> simp
  have hloop := ntLoop_take entries opsSize 0
  rw [numerical_transform_accumulate, hinit, hloop]
  refine ⟨by simpa using loopCount_le _ opsSize 0, rfl, ?_, ?_, ?_⟩
  · intro i hi
    have := loopCount_not_stop_before (fun j => !ntFound entries j) opsSize 0 i
      (Nat.zero_le _) hi
    simpa using this
  · intro hlt
    have := loopCount_stop_at_exit (fun j => !ntFound entries j) opsSize 0
      (by simpa using hlt)
    simpa using this
  · intro r
    rw [numerical_transform_reduce_targets, List.mem_filterMap]
    constructor
    · rintro ⟨e, he, hfe⟩
      by_cases hc : (!e.topZero && !e.isLocal) = true
      · rw [if_pos hc] at hfe
        have h12 : e.topZero = false ∧ e.isLocal = false := by simpa using hc
        exact ⟨e, he, h12.1, h12.2, Option.some.inj hfe⟩
      · rw [if_neg hc] at hfe
        cases hfe
    · rintro ⟨e, he, h1, h2, h3⟩
      refine ⟨e, he, ?_⟩
      rw [if_pos (by simp [h1, h2]), h3]

/-- Witness for C4 on one entry with two local summands and a pass
budget of three: the first pass (which precedes the exit) contributed a
summand. -/
theorem numerical_transform_loop_termination_witness :
    ntFound [NTEntry.mk false false 3 [⟨5, 1, false⟩, ⟨6, 1, false⟩]] 0 = true :=
  (numerical_transform_loop_termination 3
    [NTEntry.mk false false 3 [⟨5, 1, false⟩, ⟨6, 1, false⟩]]).2.2.1 0 (by decide)

/-! ## Single-site blocking is a recoverable error (C6) -/

/-- C6: in all four sweep drivers, requesting a blocking step with
`dot != 2` throws the catchable
`runtime_error("1 site not yet implemented")`, a failure mode distinct
from every fatal assertion failure, so the caller can catch it and pick
a different configuration. -/
theorem single_site_blocking_runtime_error (dot : Nat) (hdot : dot ≠ 2)
    (cfI cfI1 : Tag) :
    dmrgBlocking dot cfI cfI1 =
        .error (.runtimeErr "1 site not yet implemented") ∧
    teBlocking dot = .error (.runtimeErr "1 site not yet implemented") ∧
    compressBlocking dot = .error (.runtimeErr "1 site not yet implemented") ∧
    expectBlocking dot cfI cfI1 =
        .error (.runtimeErr "1 site not yet implemented") ∧
    ∀ msg, SweepErr.runtimeErr msg ≠ SweepErr.assertFail := by
  refine ⟨?_, ?_, ?_, ?_, fun msg h => nomatch h⟩ <;>
    simp [dmrgBlocking, teBlocking, compressBlocking, expectBlocking, hdot]

/-- Witness for C6 at the single-site configuration `dot = 1`. -/
theorem single_site_blocking_runtime_error_witness :
    dmrgBlocking 1 Tag.C Tag.C =
      .error (.runtimeErr "1 site not yet implemented") :=
  (single_site_blocking_runtime_error 1 (by decide) Tag.C Tag.C).1

/-! ## RK4 boundary fallback and weights (C7) -/

/-- C7: in RK4 mode, a two-dot time-evolution step at a chain boundary
(forward step whose right site `i+1` is the last site `n_sites - 1`, or
backward step at site `0`) falls back to the tangent-space
single-exponential effective mode; away from boundaries the RK4 branch
runs and combines the four intermediate evaluations into the density
matrix with the weights `{1/3, 1/6, 1/6, 1/3}`. -/
theorem te_rk4_boundary_fallback (forward advance : Bool) (i nSites : ℤ) :
    (((forward = true ∧ i + 1 = nSites - 1) ∨ (forward = false ∧ i = 0)) →
      teEffectiveMode TETypes.rk4 forward i nSites = TETypes.tangentSpace) ∧
    (¬((forward = true ∧ i + 1 = nSites - 1) ∨ (forward = false ∧ i = 0)) →
      teUpdateBranch TETypes.rk4 forward advance i nSites teWeights =
        .ok (TEBranch.rk4Weighted [1 / 3, 1 / 6, 1 / 6, 1 / 3])) := by
  have hb : teBoundary forward i nSites = true ↔
      ((forward = true ∧ i + 1 = nSites - 1) ∨ (forward = false ∧ i = 0)) := by
    cases forward <;> simp [teBoundary]
  constructor
  · intro h
    rw [teEffectiveMode, if_pos (by simp [hb.mpr h])]
  · intro h
    have hb' : teBoundary forward i nSites = false :=
      Bool.eq_false_iff.mpr fun hc => h (hb.mp hc)
    rw [teUpdateBranch]
    simp [teEffectiveMode, hb', teWeights]

/-- Witness for C7 on a 4-site chain: forward at sites `2`, `3` is a
boundary step; forward at sites `0`, `1` is not. -/
theorem te_rk4_boundary_fallback_witness :
    teEffectiveMode TETypes.rk4 true 2 4 = TETypes.tangentSpace ∧
    teUpdateBranch TETypes.rk4 true true 0 4 teWeights =
      .ok (TEBranch.rk4Weighted [1 / 3, 1 / 6, 1 / 6, 1 / 3]) :=
  ⟨(te_rk4_boundary_fallback true true 2 4).1 (Or.inl ⟨rfl, by decide⟩),
   (te_rk4_boundary_fallback true true 0 4).2 (by decide)⟩

/-! ## Alternating truncation-pattern control (C8) -/

/-- C8: with pattern `TruncAfterOdd` at even `i`, or `TruncAfterEven` at
odd `i`, the split receives bond dimension `-1` — no truncation, an
unbounded kept dimension; at every other position the requested budget
is passed through. -/
theorem te_trunc_pattern_no_truncation (tp : TruncPatternTypes)
    (i bondDim : ℤ) (_hi : 0 ≤ i) :
    (((tp = TruncPatternTypes.truncAfterOdd ∧ i % 2 = 0) ∨
        (tp = TruncPatternTypes.truncAfterEven ∧ i % 2 = 1)) →
      teSplitBondDim tp i bondDim = -1 ∧
        splitKeptBound (teSplitBondDim tp i bondDim) = none) ∧
    (¬((tp = TruncPatternTypes.truncAfterOdd ∧ i % 2 = 0) ∨
        (tp = TruncPatternTypes.truncAfterEven ∧ i % 2 = 1)) →
      teSplitBondDim tp i bondDim = bondDim) := by
  constructor
  · intro h
    have hval : teSplitBondDim tp i bondDim = -1 := by
      rcases h with ⟨h1, h2⟩ | ⟨h1, h2⟩ <;> simp [teSplitBondDim, h1, h2]
    exact ⟨hval, by rw [hval]; rfl⟩
  · intro h
    rw [teSplitBondDim, if_neg (by simpa using h)]

/-- Witness for C8: `TruncAfterOdd` disables truncation at site `0` and
applies the budget `500` at site `1`. -/
theorem te_trunc_pattern_no_truncation_witness :
    (teSplitBondDim TruncPatternTypes.truncAfterOdd 0 500 = -1 ∧
      splitKeptBound (teSplitBondDim TruncPatternTypes.truncAfterOdd 0 500) =
        none) ∧
    teSplitBondDim TruncPatternTypes.truncAfterOdd 1 500 = 500 :=
  ⟨(te_trunc_pattern_no_truncation TruncPatternTypes.truncAfterOdd 0 500
      (by decide)).1 (Or.inl ⟨rfl, by decide⟩),
   (te_trunc_pattern_no_truncation TruncPatternTypes.truncAfterOdd 1 500
      (by decide)).2 (by decide)⟩

/-! ## Partition weights and thermally-averaged expectations (C9) -/

theorem sum_map_div (l : List ℚ) (s : ℚ) :
    (l.map fun w => w / s).sum = l.sum / s := by
  induction l with
  | nil => simp
  | cons x xs ih => simp [ih, add_div]

theorem multi_expect_value_eq (pw vals : List ℚ) :
    multi_expect_value pw vals =
      ((List.range pw.length).map fun l => pw.getD l 0 * vals.getD l 0).sum := by
  rw [multi_expect_value]
  suffices h : ∀ (li : List ℕ) (init : ℚ),
      li.foldl (fun x l => x + pw.getD l 0 * vals.getD l 0) init =
        init + (li.map fun l => pw.getD l 0 * vals.getD l 0).sum by
    simpa using h (List.range pw.length) 0
  intro li
  induction li with
  | nil => simp
  | cons a as ih =>
    intro init
    rw [List.foldl_cons, List.map_cons, List.sum_cons, ih, add_assoc]

/-- C9: for energies and multiplicities of equal length with a non-zero
total Boltzmann weight, `get_partition_weights` returns
`multiplicity_i * exp(-beta * (E_i - E_0))` divided by the sum of those
terms, and the returned weights sum to `1`; `Expect`'s multi-target
update reports each operator's expectation as the partition-weighted sum
of its per-target values. -/
theorem partition_weights_normalized (expFn : ℚ → ℚ) (beta : ℚ)
    (energies : List ℚ) (multiplicities : List ℤ)
    (_hlen : energies.length = multiplicities.length)
    (hsum : (partition_terms expFn beta energies multiplicities).sum ≠ 0) :
    (∀ i, i < energies.length →
      (get_partition_weights expFn beta energies multiplicities).getD i 0 =
        (multiplicities.getD i 0 : ℚ) *
            expFn (-beta * (energies.getD i 0 - energies.getD 0 0)) /
          (partition_terms expFn beta energies multiplicities).sum) ∧
    (get_partition_weights expFn beta energies multiplicities).sum = 1 ∧
    (∀ (pw : List ℚ) (pdi : List (Nat × List ℚ)),
      update_multi_expectations pw pdi =
        pdi.map fun kv =>
          (kv.1, ((List.range pw.length).map
            fun l => pw.getD l 0 * kv.2.getD l 0).sum)) := by
  refine ⟨?_, ?_, ?_⟩
  · intro i hi
    show ((partition_terms expFn beta energies multiplicities).map
        fun w => w /
          (partition_terms expFn beta energies multiplicities).sum).getD i 0 = _
    rw [List.getD_eq_getElem?_getD, List.getElem?_map]
    rw [show (partition_terms expFn beta energies multiplicities)[i]? =
        some ((multiplicities.getD i 0 : ℚ) *
          expFn (-beta * (energies.getD i 0 - energies.getD 0 0))) by
      rw [partition_terms, List.getElem?_map, List.getElem?_range hi]
      rfl]
    rfl
  · show ((partition_terms expFn beta energies multiplicities).map
        fun w => w /
          (partition_terms expFn beta energies multiplicities).sum).sum = 1
    rw [sum_map_div, div_self hsum]
  · intro pw pdi
    rw [update_multi_expectations]
    exact List.map_congr_left fun kv _ => by rw [multi_expect_value_eq]

/-- Witness for C9 at `beta = 0` with two degenerate targets: the
weights sum to `1`. -/
theorem partition_weights_normalized_witness :
    (get_partition_weights (fun _ => 1) 0 [0, 0] [1, 1]).sum = 1 :=
  (partition_weights_normalized (fun _ => 1) 0 [0, 0] [1, 1] rfl
    (by norm_num [partition_terms, List.range_succ])).2.1

/-! ## Bra/ket aliasing (C10) -/

/-- C10: aliasing bra and ket in `Compress::update_two_dot` trips the
`assert(me->bra != me->ket)` precondition — a fatal programming error,
not a supported configuration — while distinct objects pass the check;
`Expect::update_two_dot` instead supports `bra == ket` by updating the
single shared object once, and updates both objects when they are
distinct. -/
theorem compress_requires_distinct_bra_ket (b k : Nat) (hbk : b ≠ k) :
    compress_update_two_dot_check b b = .error .assertFail ∧
    compress_update_two_dot_check b k = .ok () ∧
    expect_update_mpss b b = [b] ∧
    expect_update_mpss b k = [b, k] := by
  refine ⟨?_, ?_, ?_, ?_⟩
  · rw [compress_update_two_dot_check, if_neg (by simp)]
  · rw [compress_update_two_dot_check, if_pos hbk]
  · rw [expect_update_mpss, if_pos rfl]
  · rw [expect_update_mpss, if_neg hbk]

/-- Witness for C10 with the concrete MPS identities `0` and `1`. -/
theorem compress_requires_distinct_bra_ket_witness :
    compress_update_two_dot_check 0 0 = .error .assertFail ∧
    compress_update_two_dot_check 0 1 = .ok () ∧
    expect_update_mpss 0 0 = [0] ∧
    expect_update_mpss 0 1 = [0, 1] :=
  compress_requires_distinct_bra_ket 0 1 (by decide)

end Block2
